import Mathlib

/-!
Verification of the pointwise matcher of googletest-rust
(`src/googletest/src/matchers/pointwise_matcher.rs`).

The observed container and the predicate list are embedded as Lean lists.
The single-value predicate abstraction (the `Matcher<T>` trait) is embedded
as a structure of three functions; `MatcherResult` as a two-constructor
inductive.  `MatchExplanation::create` merely wraps a string, so
`explain_match` is embedded as returning the string itself.  Rust's
`{a:?}` debug rendering of an element is embedded as an explicit
`dbg : α → String` argument.
-/

inductive MatcherResult : Type where
  | Matches : MatcherResult
  | DoesNotMatch : MatcherResult
deriving DecidableEq, Repr

/-- `MatcherResult::pick` from the matcher module: picks the first string on
`Matches` and the second on `DoesNotMatch`. -/
def MatcherResult.pick (r : MatcherResult) (a b : String) : String :=
  match r with
  | .Matches => a
  | .DoesNotMatch => b

/-- The single-value predicate abstraction (the `Matcher<T>` trait): it can
test a value, explain why a value did or did not satisfy it, and describe
its requirement for a given polarity. -/
structure Matcher (α : Type) : Type where
  «matches» : α → MatcherResult
  explain_match : α → String
  describe : MatcherResult → String

/-- Modelled from the spec: the Paired Walker (`zipped_iterator.rs`, not among
the sources) yields the pairs of the overlapping prefix of the two sequences
in ascending index order — exactly `List.zip`.  Its post-hoc
`has_size_mismatch` query, after a walk that consumed all yielded pairs,
reports whether either side had unconsumed elements, i.e. whether the two
lengths differ. -/
def hasSizeMismatch (O : List α) (P : List β) : Bool :=
  O.length != P.length

/-- Modelled from the spec: the Paired Walker's `left_size` query reports the
count of observed-side elements consumed; detecting leftovers drains the
longer side, so after a completed walk it is the full observed length (the
spec's concrete scenario 1 reports size 3 for a 3-element observed
sequence against 2 predicates, as does the test
`pointwise_returns_mismatch_when_actual_value_has_wrong_length`). -/
def leftSize (O : List α) : Nat :=
  O.length

/-- Modelled from the spec: `Description` bullet-list rendering
(`description.rs`, not among the sources).  `bullet_list().indent()` turns
each entry into a line `  * entry`; the lines are joined by newlines (per
the spec's §4.2 bullet-list wording and the two-mismatch test's expected
output). -/
def bulletListIndent (entries : List String) : String :=
  String.intercalate "\n" (entries.map (fun s => "  * " ++ s))

/-- Modelled from the spec: `Description.enumerate().indent()` prefixes each
entry with its zero-based position number and indents it, producing lines
`  i. entry` joined by newlines (per the spec's `describe` wording and the
expected `Expected:` blocks of the tests). -/
def enumerateIndentFrom (n : Nat) : List String → List String
  | [] => []
  | d :: rest => ("  " ++ toString n ++ ". " ++ d) :: enumerateIndentFrom (n + 1) rest

def enumerateIndent (ds : List String) : String :=
  String.intercalate "\n" (enumerateIndentFrom 0 ds)

/-- The pointwise matcher: holds an ordered list of predicates, one per
expected position (`PointwiseMatcher { matchers: Vec<MatcherT> }`). -/
structure PointwiseMatcher (α : Type) : Type where
  matchers : List (Matcher α)

/-- The `for` loop of `PointwiseMatcher::matches`: walks the yielded pairs,
returning `DoesNotMatch` at the first unsatisfied pair (short-circuit);
only when all pairs are satisfied is the walker's post-hoc size-mismatch
flag (passed in as `mismatch`) consulted. -/
def matchPairs : List (α × Matcher α) → Bool → MatcherResult
  | [], mismatch => if mismatch then .DoesNotMatch else .Matches
  | (a, e) :: rest, mismatch =>
    match e.«matches» a with
    | .DoesNotMatch => .DoesNotMatch
    | .Matches => matchPairs rest mismatch

/-- `PointwiseMatcher::matches`. -/
def PointwiseMatcher.«matches» (m : PointwiseMatcher α) (actual : List α) : MatcherResult :=
  matchPairs (actual.zip m.matchers) (hasSizeMismatch actual m.matchers)

/-- One mismatch entry of `explain_match`:
`format!("element #{idx} is {a:?}, {}", e.explain_match(a))`. -/
def entryAt (dbg : α → String) (idx : Nat) (a : α) (e : Matcher α) : String :=
  "element #" ++ toString idx ++ " is " ++ dbg a ++ ", " ++ e.explain_match a

/-- The mismatch-collecting loop of `explain_match`: enumerates the yielded
pairs from index `idx` and pushes an entry for every unsatisfied pair. -/
def collectMismatches (dbg : α → String) : Nat → List (α × Matcher α) → List String
  | _, [] => []
  | idx, (a, e) :: rest =>
    match e.«matches» a with
    | .DoesNotMatch => entryAt dbg idx a e :: collectMismatches dbg (idx + 1) rest
    | .Matches => collectMismatches dbg (idx + 1) rest

/-- `PointwiseMatcher::explain_match`.  The loop always runs to completion,
after which the walker's size-mismatch flag and left size are consulted. -/
def PointwiseMatcher.explain_match (dbg : α → String) (m : PointwiseMatcher α)
    (actual : List α) : String :=
  let mismatches := collectMismatches dbg 0 (actual.zip m.matchers)
  if mismatches.isEmpty then
    if !hasSizeMismatch actual m.matchers then
      "which matches all elements"
    else
      "which has size " ++ toString (leftSize actual) ++ " (expected "
        ++ toString m.matchers.length ++ ")"
  else if mismatches.length = 1 then
    "where " ++ mismatches.headD ""
  else
    "where:\n" ++ bulletListIndent mismatches

/-- `PointwiseMatcher::describe`: the polarity picks the verb; every
predicate is described in its positive (`Matches`) framing. -/
def PointwiseMatcher.describe (m : PointwiseMatcher α) (r : MatcherResult) : String :=
  r.pick "has" "doesn\x27t have" ++ " elements satisfying respectively:\n"
    ++ enumerateIndent (m.matchers.map (fun e => e.describe .Matches))

/-- Specification-side view: does position `i` hold an unsatisfied
overlapping pair?  Formulated directly by indexing the two lists. -/
def failsAt (P : List (Matcher α)) (O : List α) (i : Nat) : Bool :=
  match O[i]?, P[i]? with
  | some a, some e => decide (e.«matches» a = .DoesNotMatch)
  | _, _ => false

/-- Specification-side view: the ascending list of unsatisfied overlapping
positions. -/
def failingIndices (P : List (Matcher α)) (O : List α) : List Nat :=
  (List.range (min O.length P.length)).filter (failsAt P O)

/-! ### Helper lemmas about the two walks -/

theorem matchPairs_eq_matches_iff (l : List (α × Matcher α)) (b : Bool) :
    matchPairs l b = .Matches ↔
      ((∀ p ∈ l, p.2.«matches» p.1 = .Matches) ∧ b = false) := by
  induction l with
  | nil => cases b <;> simp [matchPairs]
  | cons q rest ih =>
      obtain ⟨a, e⟩ := q
      cases he : e.«matches» a <;>
        simp [matchPairs, he, List.forall_mem_cons, ih]

theorem collectMismatches_eq_nil_iff (dbg : α → String) (n : Nat)
    (l : List (α × Matcher α)) :
    collectMismatches dbg n l = [] ↔ ∀ p ∈ l, p.2.«matches» p.1 = .Matches := by
  induction l generalizing n with
  | nil => simp [collectMismatches]
  | cons q rest ih =>
      obtain ⟨a, e⟩ := q
      cases he : e.«matches» a <;>
        simp [collectMismatches, he, List.forall_mem_cons, ih]

/-- Whether position `i` of a pair list holds an unsatisfied pair. -/
def pairFails (l : List (α × Matcher α)) (i : Nat) : Bool :=
  match l[i]? with
  | some q => decide (q.2.«matches» q.1 = .DoesNotMatch)
  | none => false

theorem filterRange_cons (dbg : α → String) (n : Nat) (a : α) (e : Matcher α)
    (rest : List (α × Matcher α)) :
    ((List.range ((a, e) :: rest).length).filter (pairFails ((a, e) :: rest))).map
        (fun i => ((((a, e) :: rest)[i]?).elim ""
          (fun q => entryAt dbg (n + i) q.1 q.2)))
      = (if e.«matches» a = .DoesNotMatch then [entryAt dbg n a e] else [])
          ++ ((List.range rest.length).filter (pairFails rest)).map
              (fun i => ((rest[i]?).elim "" (fun q => entryAt dbg (n + 1 + i) q.1 q.2))) := by
  have hcomp : pairFails ((a, e) :: rest) ∘ Nat.succ = pairFails rest := by
    funext i
    simp [pairFails, Function.comp]
  have hmaps :
      ((List.range rest.length).filter (pairFails rest)).map
          ((fun i => ((((a, e) :: rest)[i]?).elim ""
            (fun q => entryAt dbg (n + i) q.1 q.2))) ∘ Nat.succ)
        = ((List.range rest.length).filter (pairFails rest)).map
            (fun i => ((rest[i]?).elim "" (fun q => entryAt dbg (n + 1 + i) q.1 q.2))) := by
    apply List.map_congr_left
    intro i _
    have hni : n + Nat.succ i = n + 1 + i := by omega
    simp [Function.comp, hni]
  rw [show ((a, e) :: rest).length = rest.length + 1 from rfl, List.range_succ_eq_map,
    List.filter_cons, List.filter_map, hcomp]
  cases hd : e.«matches» a
  case Matches =>
      rw [if_neg (by simp [pairFails, hd]), if_neg (by simp)]
      rw [List.map_map, hmaps, List.nil_append]
  case DoesNotMatch =>
      rw [if_pos (by simp [pairFails, hd]), if_pos rfl]
      rw [List.map_cons, List.map_map, hmaps]
      simp

theorem collectMismatches_eq_filterRange (dbg : α → String) (n : Nat)
    (l : List (α × Matcher α)) :
    collectMismatches dbg n l =
      ((List.range l.length).filter (pairFails l)).map
        (fun i => ((l[i]?).elim "" (fun q => entryAt dbg (n + i) q.1 q.2))) := by
  induction l generalizing n with
  | nil => simp [collectMismatches]
  | cons q rest ih =>
      obtain ⟨a, e⟩ := q
      rw [filterRange_cons]
      cases he : e.«matches» a <;>
        simp [collectMismatches, he, ih]

theorem getElem?_zip_eq (O : List α) (P : List β) (i : Nat) :
    (O.zip P)[i]? = (O[i]?).bind (fun a => (P[i]?).map (fun e => (a, e))) := by
  induction O generalizing P i with
  | nil => simp
  | cons a O ih =>
      cases P with
      | nil => simp
      | cons e P =>
          cases i with
          | zero => simp
          | succ i => simpa using ih P i

theorem pairFails_zip (P : List (Matcher α)) (O : List α) :
    pairFails (O.zip P) = failsAt P O := by
  funext i
  simp only [pairFails, failsAt, getElem?_zip_eq]
  cases O[i]? <;> cases P[i]? <;> simp

theorem append_ne_append (a b : String) (k : Nat)
    (hka : k < a.data.length) (hkb : k < b.data.length)
    (hne : a.data[k]? ≠ b.data[k]?) : ∀ s t : String, a ++ s ≠ b ++ t := by
  intro s t h
  apply hne
  have hd : a.data ++ s.data = b.data ++ t.data := by
    have hc := congrArg String.data h
    simpa [String.data_append] using hc
  calc a.data[k]? = (a.data ++ s.data)[k]? := (List.getElem?_append_left hka).symm
    _ = (b.data ++ t.data)[k]? := by rw [hd]
    _ = b.data[k]? := List.getElem?_append_left hkb

theorem matchPairs_append_fail (l₁ rest : List (α × Matcher α)) (a : α) (e : Matcher α)
    (b : Bool) (hfail : e.«matches» a = .DoesNotMatch) :
    matchPairs (l₁ ++ (a, e) :: rest) b = .DoesNotMatch := by
  induction l₁ with
  | nil => simp [matchPairs, hfail]
  | cons q l₁ ih =>
      obtain ⟨x, m⟩ := q
      cases hm : m.«matches» x <;> simp [matchPairs, hm, ih]

/-- A concrete equality predicate on naturals, standing in for the external
`eq` matcher of the spec's concrete scenarios. -/
def eqMatcher (n : Nat) : Matcher Nat where
  «matches» := fun a => if a = n then .Matches else .DoesNotMatch
  explain_match := fun a =>
    if a = n then "which is equal to " ++ toString n
    else "which is not equal to " ++ toString n
  describe := fun r =>
    r.pick ("is equal to " ++ toString n) ("is not equal to " ++ toString n)

/-! ### The claims -/

/-- C1: for every predicate list `P` and observed sequence `O`, `matches`
returns `Matches` iff `O` and `P` have equal length and every position's
predicate is satisfied by the corresponding observed element. -/
theorem pointwise_matches_iff (P : List (Matcher α)) (O : List α) :
    (PointwiseMatcher.mk P).«matches» O = .Matches ↔
      (O.length = P.length ∧
        ∀ (i : Nat) (hp : i < P.length) (ho : i < O.length),
          (P[i]).«matches» (O[i]) = .Matches) := by
  unfold PointwiseMatcher.«matches»
  rw [matchPairs_eq_matches_iff]
  constructor
  · rintro ⟨hall, hb⟩
    have hlen : O.length = P.length := by
      simpa [hasSizeMismatch] using hb
    refine ⟨hlen, ?_⟩
    intro i hp ho
    have hsome : (O.zip P)[i]? = some (O[i], P[i]) := by
      rw [getElem?_zip_eq]
      simp [List.getElem?_eq_getElem, ho, hp]
    exact hall _ (List.mem_iff_getElem?.mpr ⟨i, hsome⟩)
  · rintro ⟨hlen, hall⟩
    refine ⟨?_, by simp [hasSizeMismatch, hlen]⟩
    intro p hp
    obtain ⟨i, hi⟩ := List.mem_iff_getElem?.mp hp
    rw [getElem?_zip_eq] at hi
    cases hO : O[i]? with
    | none => rw [hO] at hi; simp at hi
    | some a =>
        cases hP : P[i]? with
        | none => rw [hO, hP] at hi; simp at hi
        | some e =>
            rw [hO, hP] at hi
            simp at hi
            obtain ⟨ho, ha⟩ := List.getElem?_eq_some_iff.mp hO
            obtain ⟨hpp, hee⟩ := List.getElem?_eq_some_iff.mp hP
            have h2 := hall i hpp ho
            rw [ha, hee] at h2
            rw [← hi]
            exact h2

/-- C7: a failing overlapping position short-circuits `matches`: whenever
some prefix position fails, the result is `DoesNotMatch` and is independent
of everything (elements, predicates, lengths) after that position. -/
theorem pointwise_matches_short_circuits (O₁ O₂ Oa : List α) (a : α)
    (P₁ P₂ Pa : List (Matcher α)) (e : Matcher α)
    (hlen : O₁.length = P₁.length)
    (hfail : e.«matches» a = .DoesNotMatch) :
    (PointwiseMatcher.mk (P₁ ++ e :: P₂)).«matches» (O₁ ++ a :: O₂) = .DoesNotMatch ∧
      (PointwiseMatcher.mk (P₁ ++ e :: P₂)).«matches» (O₁ ++ a :: O₂)
        = (PointwiseMatcher.mk (P₁ ++ e :: Pa)).«matches» (O₁ ++ a :: Oa) := by
  have key : ∀ (O' : List α) (P' : List (Matcher α)) (b : Bool),
      matchPairs ((O₁ ++ a :: O').zip (P₁ ++ e :: P')) b = .DoesNotMatch := by
    intro O' P' b
    rw [List.zip_append hlen, List.zip_cons_cons]
    exact matchPairs_append_fail _ _ _ _ _ hfail
  unfold PointwiseMatcher.«matches»
  simp [key]

/-- C7 witness at a concrete input. -/
theorem pointwise_matches_short_circuits_witness :
    (PointwiseMatcher.mk ([eqMatcher 1] ++ eqMatcher 2 :: [eqMatcher 9])).«matches»
        ([1] ++ 0 :: [5]) = .DoesNotMatch ∧
      (PointwiseMatcher.mk ([eqMatcher 1] ++ eqMatcher 2 :: [eqMatcher 9])).«matches»
          ([1] ++ 0 :: [5])
        = (PointwiseMatcher.mk ([eqMatcher 1] ++ eqMatcher 2 :: [eqMatcher 3])).«matches»
            ([1] ++ 0 :: [7]) :=
  pointwise_matches_short_circuits [1] [5] [7] 0 [eqMatcher 1] [eqMatcher 9]
    [eqMatcher 3] (eqMatcher 2) (by decide) (by decide)

/-- C9: on the empty observed sequence with the empty predicate list,
`matches` returns `Matches` and `explain_match` returns exactly
`"which matches all elements"`. -/
theorem pointwise_empty_empty (dbg : α → String) :
    (PointwiseMatcher.mk ([] : List (Matcher α))).«matches» [] = .Matches ∧
      PointwiseMatcher.explain_match dbg (PointwiseMatcher.mk []) []
        = "which matches all elements" := by
  exact ⟨rfl, rfl⟩

/-- The mismatch entry recorded at position `i`, looked up through the two
lists (empty when either side has no element there). -/
def entryOption (dbg : α → String) (P : List (Matcher α)) (O : List α) (i : Nat) : String :=
  match O[i]?, P[i]? with
  | some a, some e => entryAt dbg i a e
  | _, _ => ""

theorem mismatchList_eq (dbg : α → String) (P : List (Matcher α)) (O : List α) :
    collectMismatches dbg 0 (O.zip P) = (failingIndices P O).map (entryOption dbg P O) := by
  rw [collectMismatches_eq_filterRange, List.length_zip, pairFails_zip]
  unfold failingIndices
  apply List.map_congr_left
  intro i _
  rw [getElem?_zip_eq]
  cases hO : O[i]? <;> cases hP : P[i]? <;> simp [entryOption, hO, hP, Nat.zero_add]

theorem failingIndices_eq_nil_iff (P : List (Matcher α)) (O : List α) :
    failingIndices P O = [] ↔
      ∀ (i : Nat) (hp : i < P.length) (ho : i < O.length),
        (P[i]).«matches» (O[i]) = .Matches := by
  unfold failingIndices
  rw [List.filter_eq_nil_iff]
  constructor
  · intro h i hp ho
    have hmem : i ∈ List.range (min O.length P.length) := by
      rw [List.mem_range]
      omega
    have hni := h i hmem
    simp [failsAt, List.getElem?_eq_getElem, ho, hp] at hni
    cases hmm : (P[i]).«matches» (O[i])
    · rfl
    · exact absurd hmm hni
  · intro h i hmem
    rw [List.mem_range] at hmem
    have ho : i < O.length := by omega
    have hp : i < P.length := by omega
    simp [failsAt, List.getElem?_eq_getElem, ho, hp, h i hp ho]

theorem lt_of_failsAt (P : List (Matcher α)) (O : List α) (i : Nat)
    (h : failsAt P O i = true) : i < O.length ∧ i < P.length := by
  unfold failsAt at h
  cases hO : O[i]? with
  | none => rw [hO] at h; simp at h
  | some a =>
      cases hP : P[i]? with
      | none => rw [hO, hP] at h; simp at h
      | some e =>
          obtain ⟨ho, -⟩ := List.getElem?_eq_some_iff.mp hO
          obtain ⟨hp, -⟩ := List.getElem?_eq_some_iff.mp hP
          exact ⟨ho, hp⟩

theorem failsAt_eq_false_of_ge (P : List (Matcher α)) (O : List α) (i : Nat)
    (h : min O.length P.length ≤ i) : failsAt P O i = false := by
  unfold failsAt
  rcases min_le_iff.mp h with hle | hle
  · rw [List.getElem?_eq_none hle]
  · rw [List.getElem?_eq_none hle]
    cases O[i]? <;> rfl

theorem filter_range_eq_singleton {f : Nat → Bool} {i : Nat}
    (hi : f i = true) (huniq : ∀ j, j ≠ i → f j = false) :
    ∀ n, i < n → (List.range n).filter f = [i] := by
  intro n
  induction n with
  | zero => intro hin; omega
  | succ n ih =>
      intro hin
      rw [List.range_succ, List.filter_append]
      by_cases hcase : i = n
      · have hnil : (List.range n).filter f = [] := by
          rw [List.filter_eq_nil_iff]
          intro j hj
          rw [List.mem_range] at hj
          simp [huniq j (by omega)]
        rw [hnil, ← hcase]
        simp [List.filter_cons, hi]
      · have hfn : f n = false := huniq n (by omega)
        rw [ih (by omega)]
        simp [List.filter_cons, hfn]

theorem append_ne_of (a b : String) (k : Nat) (hka : k < a.data.length)
    (hkb : k < b.data.length) (hne : a.data[k]? ≠ b.data[k]?) :
    ∀ s, a ++ s ≠ b := by
  intro s h
  have hb : a ++ s ≠ b ++ "" := append_ne_append a b k hka hkb hne s ""
  rw [String.append_empty] at hb
  exact hb h

/-- C2: when at least one overlapping position is unsatisfied and the
lengths differ, `explain_match` reports in the `where ...` form and never
emits the size-mismatch message (which appears only with zero content
mismatches). -/
theorem pointwise_explain_content_precedence (dbg : α → String) (P : List (Matcher α))
    (O : List α) (i : Nat)
    (hfi : failsAt P O i = true)
    (_hne : O.length ≠ P.length) :
    (∃ s, PointwiseMatcher.explain_match dbg (PointwiseMatcher.mk P) O = "where" ++ s) ∧
      ∀ s, PointwiseMatcher.explain_match dbg (PointwiseMatcher.mk P) O
        ≠ "which has size " ++ s := by
  obtain ⟨ho, hp⟩ := lt_of_failsAt P O i hfi
  have hmem : i ∈ failingIndices P O := by
    unfold failingIndices
    rw [List.mem_filter, List.mem_range]
    exact ⟨by omega, hfi⟩
  have hM := mismatchList_eq dbg P O
  cases hF : failingIndices P O with
  | nil => rw [hF] at hmem; simp at hmem
  | cons j js =>
      rw [hF] at hM
      cases js with
      | nil =>
          have hx : PointwiseMatcher.explain_match dbg (PointwiseMatcher.mk P) O
              = "where " ++ entryOption dbg P O j := by
            simp [PointwiseMatcher.explain_match, hM]
          rw [hx]
          constructor
          · exact ⟨" " ++ entryOption dbg P O j, by rw [← String.append_assoc]; rfl⟩
          · intro s
            exact append_ne_append "where " "which has size " 2 (by decide) (by decide)
              (by decide) _ s
      | cons k ks =>
          have hx : PointwiseMatcher.explain_match dbg (PointwiseMatcher.mk P) O
              = "where:\n" ++ bulletListIndent
                  (entryOption dbg P O j :: entryOption dbg P O k
                    :: ks.map (entryOption dbg P O)) := by
            simp [PointwiseMatcher.explain_match, hM]
          rw [hx]
          constructor
          · exact ⟨":\n" ++ bulletListIndent
              (entryOption dbg P O j :: entryOption dbg P O k
                :: ks.map (entryOption dbg P O)), by rw [← String.append_assoc]; rfl⟩
          · intro s
            exact append_ne_append "where:\n" "which has size " 2 (by decide) (by decide)
              (by decide) _ s

/-- C2 witness at a concrete input. -/
theorem pointwise_explain_content_precedence_witness :
    (∃ s, PointwiseMatcher.explain_match toString
        (PointwiseMatcher.mk [eqMatcher 2, eqMatcher 2]) [1, 2, 3] = "where" ++ s) ∧
      ∀ s, PointwiseMatcher.explain_match toString
          (PointwiseMatcher.mk [eqMatcher 2, eqMatcher 2]) [1, 2, 3]
        ≠ "which has size " ++ s :=
  pointwise_explain_content_precedence toString [eqMatcher 2, eqMatcher 2] [1, 2, 3] 0
    (by decide) (by decide)

/-- C3: when every overlapping position is satisfied but the lengths differ,
`explain_match` returns exactly the size-mismatch message, reporting the
full observed length. -/
theorem pointwise_explain_size_mismatch (dbg : α → String) (P : List (Matcher α))
    (O : List α)
    (hall : ∀ (i : Nat) (hp : i < P.length) (ho : i < O.length),
      (P[i]).«matches» (O[i]) = .Matches)
    (hne : O.length ≠ P.length) :
    PointwiseMatcher.explain_match dbg (PointwiseMatcher.mk P) O
      = "which has size " ++ toString O.length ++ " (expected "
        ++ toString P.length ++ ")" := by
  have hnil : failingIndices P O = [] := (failingIndices_eq_nil_iff P O).mpr hall
  have hM := mismatchList_eq dbg P O
  rw [hnil] at hM
  simp [PointwiseMatcher.explain_match, hM, hasSizeMismatch, hne, leftSize]

/-- C3 witness: the spec's concrete scenario 1. -/
theorem pointwise_explain_size_mismatch_witness :
    PointwiseMatcher.explain_match toString
        (PointwiseMatcher.mk [eqMatcher 1, eqMatcher 2]) [1, 2, 3]
      = "which has size " ++ toString (3 : Nat) ++ " (expected "
        ++ toString (2 : Nat) ++ ")" :=
  pointwise_explain_size_mismatch toString [eqMatcher 1, eqMatcher 2] [1, 2, 3]
    (by decide) (by decide)

/-- C4: with exactly one unsatisfied overlapping position `i`,
`explain_match` returns the singular `where element #i is ...` form, with
no bullet formatting. -/
theorem pointwise_explain_single_mismatch (dbg : α → String) (P : List (Matcher α))
    (O : List α) (i : Nat) (a : α) (e : Matcher α)
    (hO : O[i]? = some a) (hP : P[i]? = some e)
    (hfail : e.«matches» a = .DoesNotMatch)
    (huniq : ∀ j, j ≠ i → failsAt P O j = false) :
    PointwiseMatcher.explain_match dbg (PointwiseMatcher.mk P) O
      = "where element #" ++ toString i ++ " is " ++ dbg a ++ ", "
        ++ e.explain_match a := by
  have hfi : failsAt P O i = true := by
    simp [failsAt, hO, hP, hfail]
  obtain ⟨ho, hp⟩ := lt_of_failsAt P O i hfi
  have hsing : failingIndices P O = [i] := by
    unfold failingIndices
    exact filter_range_eq_singleton hfi huniq _ (by omega)
  have hM := mismatchList_eq dbg P O
  rw [hsing] at hM
  have hentry : entryOption dbg P O i = entryAt dbg i a e := by
    simp [entryOption, hO, hP]
  have hx : PointwiseMatcher.explain_match dbg (PointwiseMatcher.mk P) O
      = "where " ++ entryAt dbg i a e := by
    simp [PointwiseMatcher.explain_match, hM, hentry]
  rw [hx]
  simp only [entryAt, ← String.append_assoc]
  rfl

/-- C4 witness: the spec's concrete scenario 3. -/
theorem pointwise_explain_single_mismatch_witness :
    PointwiseMatcher.explain_match toString
        (PointwiseMatcher.mk [eqMatcher 1, eqMatcher 3, eqMatcher 3]) [1, 2, 3]
      = "where element #" ++ toString (1 : Nat) ++ " is " ++ toString (2 : Nat) ++ ", "
        ++ (eqMatcher 3).explain_match 2 :=
  pointwise_explain_single_mismatch toString [eqMatcher 1, eqMatcher 3, eqMatcher 3]
    [1, 2, 3] 1 2 (eqMatcher 3) rfl rfl (by decide)
    (by
      intro j hj
      match j with
      | 0 => decide
      | 1 => exact absurd rfl hj
      | 2 => decide
      | n + 3 => exact failsAt_eq_false_of_ge _ _ _ (by simp))

/-- C5: with two or more unsatisfied overlapping positions, `explain_match`
returns the `where:` header followed by one indented bullet per unsatisfied
position, in ascending index order, with no entries for satisfied
positions. -/
theorem pointwise_explain_bullet_mismatches (dbg : α → String) (P : List (Matcher α))
    (O : List α)
    (h2 : 2 ≤ (failingIndices P O).length) :
    PointwiseMatcher.explain_match dbg (PointwiseMatcher.mk P) O
      = "where:\n" ++ String.intercalate "\n"
          ((failingIndices P O).map (fun i => "  * " ++ entryOption dbg P O i)) := by
  have hM := mismatchList_eq dbg P O
  cases hF : failingIndices P O with
  | nil => rw [hF] at h2; simp at h2
  | cons j js =>
      cases js with
      | nil => rw [hF] at h2; simp at h2
      | cons k ks =>
          rw [hF] at hM
          have hx : PointwiseMatcher.explain_match dbg (PointwiseMatcher.mk P) O
              = "where:\n" ++ bulletListIndent ((j :: k :: ks).map (entryOption dbg P O)) := by
            simp [PointwiseMatcher.explain_match, hM]
          rw [hx]
          simp [bulletListIndent, List.map_map, Function.comp_def]

/-- C5 witness: the spec's concrete scenario 4. -/
theorem pointwise_explain_bullet_mismatches_witness :
    PointwiseMatcher.explain_match toString
        (PointwiseMatcher.mk [eqMatcher 2, eqMatcher 3, eqMatcher 3]) [1, 2, 3]
      = "where:\n" ++ String.intercalate "\n"
          ((failingIndices [eqMatcher 2, eqMatcher 3, eqMatcher 3] [1, 2, 3]).map
            (fun i => "  * " ++ entryOption toString
              [eqMatcher 2, eqMatcher 3, eqMatcher 3] [1, 2, 3] i)) :=
  pointwise_explain_bullet_mismatches toString [eqMatcher 2, eqMatcher 3, eqMatcher 3]
    [1, 2, 3] (by decide)

theorem enumerateIndentFrom_eq (n : Nat) (l : List String) :
    enumerateIndentFrom n l
      = (List.range l.length).map
          (fun i => "  " ++ toString (n + i) ++ ". " ++ ((l[i]?).elim "" id)) := by
  induction l generalizing n with
  | nil => simp [enumerateIndentFrom]
  | cons d rest ih =>
      rw [show (d :: rest).length = rest.length + 1 from rfl, List.range_succ_eq_map,
        List.map_cons, List.map_map]
      simp only [enumerateIndentFrom, List.cons.injEq]
      constructor
      · simp
      · rw [ih]
        apply List.map_congr_left
        intro i hi
        have hni : n + 1 + i = n + Nat.succ i := by omega
        simp [Function.comp_def, hni]

/-- C6: `describe` emits the polarity verb, the fixed header, and then every
predicate's own description exactly once, in list order, each prefixed with
its zero-based position and indented; each predicate is always described in
its positive (`Matches`) framing — only the verb depends on the polarity. -/
theorem pointwise_describe_spec (P : List (Matcher α)) (r : MatcherResult) :
    PointwiseMatcher.describe (PointwiseMatcher.mk P) r
      = (match r with
          | .Matches => "has"
          | .DoesNotMatch => "doesn\x27t have")
        ++ " elements satisfying respectively:\n"
        ++ String.intercalate "\n"
            ((List.range P.length).map
              (fun i => "  " ++ toString i ++ ". "
                ++ ((P[i]?).elim "" (fun e => e.describe .Matches)))) := by
  have hmap : ∀ i : Nat,
      (Option.map (fun e : Matcher α => e.describe .Matches) P[i]?).elim "" id
        = (P[i]?).elim "" (fun e => e.describe .Matches) := by
    intro i
    cases P[i]? <;> rfl
  cases r <;>
    simp [PointwiseMatcher.describe, MatcherResult.pick, enumerateIndent,
      enumerateIndentFrom_eq, List.length_map, hmap]

/-- C8: `matches` and `explain_match` are total on every observed sequence
and predicate list: the match result is always one of the two normal
outcomes and the explanation is always one of the four normal text forms —
there is no distinct error path. -/
theorem pointwise_total (dbg : α → String) (P : List (Matcher α)) (O : List α) :
    ((PointwiseMatcher.mk P).«matches» O = .Matches ∨
      (PointwiseMatcher.mk P).«matches» O = .DoesNotMatch) ∧
      (PointwiseMatcher.explain_match dbg (PointwiseMatcher.mk P) O
          = "which matches all elements" ∨
        (∃ s, PointwiseMatcher.explain_match dbg (PointwiseMatcher.mk P) O
          = "which has size " ++ s) ∨
        (∃ s, PointwiseMatcher.explain_match dbg (PointwiseMatcher.mk P) O
          = "where " ++ s) ∨
        (∃ s, PointwiseMatcher.explain_match dbg (PointwiseMatcher.mk P) O
          = "where:\n" ++ s)) := by
  constructor
  · cases hm : (PointwiseMatcher.mk P).«matches» O
    case Matches => exact Or.inl rfl
    case DoesNotMatch => exact Or.inr rfl
  · cases hM : collectMismatches dbg 0 (O.zip P) with
    | nil =>
        by_cases hsz : O.length = P.length
        · exact Or.inl (by simp [PointwiseMatcher.explain_match, hM, hasSizeMismatch, hsz])
        · refine Or.inr (Or.inl ⟨toString (leftSize O) ++ " (expected "
            ++ toString P.length ++ ")", ?_⟩)
          simp [PointwiseMatcher.explain_match, hM, hasSizeMismatch, hsz, leftSize,
            String.append_assoc]
    | cons x xs =>
        cases xs with
        | nil =>
            exact Or.inr (Or.inr (Or.inl
              ⟨x, by simp [PointwiseMatcher.explain_match, hM]⟩))
        | cons y ys =>
            exact Or.inr (Or.inr (Or.inr
              ⟨bulletListIndent (x :: y :: ys),
                by simp [PointwiseMatcher.explain_match, hM]⟩))

/-- C10: `explain_match` returns `"which matches all elements"` iff `matches`
returns `Matches`: the two independent walks agree on overall success. -/
theorem pointwise_explain_agrees_with_matches (dbg : α → String)
    (P : List (Matcher α)) (O : List α) :
    PointwiseMatcher.explain_match dbg (PointwiseMatcher.mk P) O
        = "which matches all elements" ↔
      (PointwiseMatcher.mk P).«matches» O = .Matches := by
  unfold PointwiseMatcher.«matches»
  rw [matchPairs_eq_matches_iff]
  constructor
  · intro h
    cases hM : collectMismatches dbg 0 (O.zip P) with
    | nil =>
        by_cases hsz : O.length = P.length
        · exact ⟨(collectMismatches_eq_nil_iff dbg 0 _).mp hM,
            by simp [hasSizeMismatch, hsz]⟩
        · exfalso
          have hx : PointwiseMatcher.explain_match dbg (PointwiseMatcher.mk P) O
              = "which has size " ++ (toString (leftSize O) ++ " (expected "
                ++ toString P.length ++ ")") := by
            simp [PointwiseMatcher.explain_match, hM, hasSizeMismatch, hsz, leftSize,
              String.append_assoc]
          rw [hx] at h
          exact append_ne_of "which has size " "which matches all elements" 6
            (by decide) (by decide) (by decide) _ h
    | cons x xs =>
        exfalso
        cases xs with
        | nil =>
            have hx : PointwiseMatcher.explain_match dbg (PointwiseMatcher.mk P) O
                = "where " ++ x := by
              simp [PointwiseMatcher.explain_match, hM]
            rw [hx] at h
            exact append_ne_of "where " "which matches all elements" 2
              (by decide) (by decide) (by decide) _ h
        | cons y ys =>
            have hx : PointwiseMatcher.explain_match dbg (PointwiseMatcher.mk P) O
                = "where:\n" ++ bulletListIndent (x :: y :: ys) := by
              simp [PointwiseMatcher.explain_match, hM]
            rw [hx] at h
            exact append_ne_of "where:\n" "which matches all elements" 2
              (by decide) (by decide) (by decide) _ h
  · rintro ⟨hall, hb⟩
    have hnil : collectMismatches dbg 0 (O.zip P) = [] :=
      (collectMismatches_eq_nil_iff dbg 0 _).mpr hall
    have hsz : O.length = P.length := by
      simpa [hasSizeMismatch] using hb
    simp [PointwiseMatcher.explain_match, hnil, hasSizeMismatch, hsz]
